import Mathlib

/-!
Verification development for the Elixir-to-txt batch converter
(src/script.py, function convert_elixir_to_txt).

Strings of the Python program are modelled as lists of characters
(abbreviation Str below).  Machine words inside the MD5 digest are
modelled as Nat with explicit reduction modulo 2 ^ 32.  Fallible
filesystem operations are modelled by an explicit environment record
(Env) of read/write outcomes, and the whole run returns Except.
-/

namespace Script

/-- Strings of the Python program, modelled as lists of characters. -/
abbrev Str := List Char

/-- Conversion helper from Lean string literals to the model type. -/
def str (s : String) : Str := s.data

/-- Model of os.path.join on POSIX for a nonempty left component:
joins with a single slash separator. -/
def pathJoin (a b : Str) : Str := a ++ '/' :: b

/-- Index of the last occurrence of a dot in a name (Python str.rfind),
or none when the name has no dot. -/
def lastDotPos : Str → Option Nat
  | [] => none
  | c :: cs =>
    match lastDotPos cs with
    | some k => some (k + 1)
    | none => if c = '.' then some 0 else none

/-- Model of pathlib splitting a final component into stem and suffix:
the suffix is name[i:] for i the last dot index when 0 < i < len - 1,
otherwise empty (sources lines 40-41 use Path(file).stem / .suffix). -/
def pySplitExt (f : Str) : Str × Str :=
  match lastDotPos f with
  | none => (f, [])
  | some i => if 0 < i ∧ i < f.length - 1 then (f.take i, f.drop i) else (f, [])

/-- Stem of a filename (filename without the final extension). -/
def pyStem (f : Str) : Str := (pySplitExt f).1

/-- Suffix of a filename (final extension including its dot, or empty). -/
def pySuffix (f : Str) : Str := (pySplitExt f).2

/-- Model of Python str.isalnum restricted to the ASCII range used by
the repository's filenames. -/
def pyIsAlnum (c : Char) : Bool := c.isAlphanum

/-- Character sanitisation of source line 44: keep alphanumerics and
the two characters - and _, replace everything else by _. -/
def safeChar (c : Char) : Char :=
  if pyIsAlnum c || c = '-' || c = '_' then c else '_'

/-- Safe base name: the stem with every character sanitised. -/
def safeBase (b : Str) : Str := b.map safeChar

/-- Safe name of source line 45: sanitised stem with the original
extension reattached. -/
def safeName (f : Str) : Str := safeBase (pyStem f) ++ pySuffix f

/-- Boolean test that pat is a prefix of s, by direct recursion. -/
def startsWithL : Str → Str → Bool
  | [], _ => true
  | _ :: _, [] => false
  | a :: as, b :: bs => decide (a = b) && startsWithL as bs

/-- Model of Python str.endswith: suf is a suffix of s. -/
def endsWithL (s suf : Str) : Bool := startsWithL suf.reverse s.reverse

/-- Filter of source line 36: only names ending in .ex or .exs. -/
def isElixir (f : Str) : Bool := endsWithL f (str ".ex") || endsWithL f (str ".exs")

/-! MD5, used at source line 52 as hashlib.md5(source_file.encode()). -/

/-- Reduction of a machine word modulo 2 ^ 32. -/
def w32 (n : Nat) : Nat := n % 4294967296

/-- Left rotation of a 32-bit word by s places. -/
def rotl32 (x s : Nat) : Nat := ((x <<< s) % 4294967296) ||| (x >>> (32 - s))

/-- Round constants of MD5 (floor(abs(sin(i + 1)) * 2 ^ 32)). -/
def md5K : List Nat :=
  [0xd76aa478, 0xe8c7b756, 0x242070db, 0xc1bdceee,
   0xf57c0faf, 0x4787c62a, 0xa8304613, 0xfd469501,
   0x698098d8, 0x8b44f7af, 0xffff5bb1, 0x895cd7be,
   0x6b901122, 0xfd987193, 0xa679438e, 0x49b40821,
   0xf61e2562, 0xc040b340, 0x265e5a51, 0xe9b6c7aa,
   0xd62f105d, 0x02441453, 0xd8a1e681, 0xe7d3fbc8,
   0x21e1cde6, 0xc33707d6, 0xf4d50d87, 0x455a14ed,
   0xa9e3e905, 0xfcefa3f8, 0x676f02d9, 0x8d2a4c8a,
   0xfffa3942, 0x8771f681, 0x6d9d6122, 0xfde5380c,
   0xa4beea44, 0x4bdecfa9, 0xf6bb4b60, 0xbebfbc70,
   0x289b7ec6, 0xeaa127fa, 0xd4ef3085, 0x04881d05,
   0xd9d4d039, 0xe6db99e5, 0x1fa27cf8, 0xc4ac5665,
   0xf4292244, 0x432aff97, 0xab9423a7, 0xfc93a039,
   0x655b59c3, 0x8f0ccc92, 0xffeff47d, 0x85845dd1,
   0x6fa87e4f, 0xfe2ce6e0, 0xa3014314, 0x4e0811a1,
   0xf7537e82, 0xbd3af235, 0x2ad7d2bb, 0xeb86d391]

/-- Per-round left-rotation amounts of MD5. -/
def md5S : List Nat :=
  [7, 12, 17, 22, 7, 12, 17, 22, 7, 12, 17, 22, 7, 12, 17, 22,
   5, 9, 14, 20, 5, 9, 14, 20, 5, 9, 14, 20, 5, 9, 14, 20,
   4, 11, 16, 23, 4, 11, 16, 23, 4, 11, 16, 23, 4, 11, 16, 23,
   6, 10, 15, 21, 6, 10, 15, 21, 6, 10, 15, 21, 6, 10, 15, 21]

/-- Nonlinear round function of MD5 for round i on words b, c, d. -/
def md5F (i b c d : Nat) : Nat :=
  if i < 16 then (b &&& c) ||| ((4294967295 ^^^ b) &&& d)
  else if i < 32 then (d &&& b) ||| ((4294967295 ^^^ d) &&& c)
  else if i < 48 then b ^^^ c ^^^ d
  else c ^^^ (b ||| (4294967295 ^^^ d))

/-- Message-word index selection of MD5 for round i. -/
def md5G (i : Nat) : Nat :=
  if i < 16 then i
  else if i < 32 then (5 * i + 1) % 16
  else if i < 48 then (3 * i + 5) % 16
  else (7 * i) % 16

/-- Little-endian 32-bit word from the first four bytes of a list. -/
def leWord : List Nat → Nat
  | b0 :: b1 :: b2 :: b3 :: _ => b0 + 256 * b1 + 65536 * b2 + 16777216 * b3
  | _ => 0

/-- The sixteen message words of one 64-byte chunk. -/
def wordsOf (chunk : List Nat) : List Nat :=
  (List.range 16).map (fun j => leWord (chunk.drop (4 * j)))

/-- One MD5 round applied to the running state (a, b, c, d). -/
def md5Step (M : List Nat) (st : Nat × Nat × Nat × Nat) (i : Nat) :
    Nat × Nat × Nat × Nat :=
  match st with
  | (a, b, c, d) =>
    let f := (md5F i b c d + a + md5K.getD i 0 + M.getD (md5G i) 0) % 4294967296
    (d, (b + rotl32 f (md5S.getD i 0)) % 4294967296, b, c)

/-- Processing of one 64-byte chunk: 64 rounds, then the additions. -/
def md5Chunk (st : Nat × Nat × Nat × Nat) (chunk : List Nat) :
    Nat × Nat × Nat × Nat :=
  match st with
  | (a0, b0, c0, d0) =>
    match (List.range 64).foldl (md5Step (wordsOf chunk)) (a0, b0, c0, d0) with
    | (a, b, c, d) => (w32 (a0 + a), w32 (b0 + b), w32 (c0 + c), w32 (d0 + d))

/-- Splitting of a byte list into 64-byte chunks, with a structural
fuel argument so that the kernel can evaluate the recursion. -/
def chunksAux : Nat → List Nat → List (List Nat)
  | 0, _ => []
  | _, [] => []
  | fuel + 1, b :: bs => ((b :: bs).take 64) :: chunksAux fuel ((b :: bs).drop 64)

/-- Splitting of a byte list into 64-byte chunks. -/
def chunks64 (l : List Nat) : List (List Nat) := chunksAux l.length l

/-- Number of zero padding bytes placed after the 0x80 byte. -/
def padLen (n : Nat) : Nat := (119 - n % 64) % 64

/-- Little-endian 64-bit encoding of the message bit length. -/
def lenBytes (n : Nat) : List Nat :=
  [8 * n % 256, 8 * n / 256 % 256, 8 * n / 65536 % 256, 8 * n / 16777216 % 256,
   8 * n / 4294967296 % 256, 8 * n / 1099511627776 % 256,
   8 * n / 281474976710656 % 256, 8 * n / 72057594037927936 % 256]

/-- MD5 padding: 0x80, zeros to 56 mod 64, then the 8 length bytes. -/
def padMsg (msg : List Nat) : List Nat :=
  msg ++ 0x80 :: (List.replicate (padLen msg.length) 0 ++ lenBytes msg.length)

/-- Core MD5 state after all chunks, from the standard initial state. -/
def md5Core (msg : List Nat) : Nat × Nat × Nat × Nat :=
  (chunks64 (padMsg msg)).foldl md5Chunk (0x67452301, 0xefcdab89, 0x98badcfe, 0x10325476)

/-- Little-endian byte decomposition of a 32-bit word. -/
def leBytes4 (w : Nat) : List Nat :=
  [w % 256, w / 256 % 256, w / 65536 % 256, w / 16777216 % 256]

/-- The sixteen digest bytes of MD5. -/
def md5Digest (msg : List Nat) : List Nat :=
  match md5Core msg with
  | (a, b, c, d) => leBytes4 a ++ leBytes4 b ++ leBytes4 c ++ leBytes4 d

/-- The sixteen lowercase hexadecimal digits. -/
def hexDigits : Str := str "0123456789abcdef"

/-- Hexadecimal digit of a number below sixteen. -/
def hexChar (n : Nat) : Char := hexDigits.getD n '0'

/-- Lowercase hexadecimal rendering of a byte list. -/
def hexOfBytes : List Nat → Str
  | [] => []
  | b :: bs => hexChar (b / 16 % 16) :: hexChar (b % 16) :: hexOfBytes bs

/-- UTF-8 encoding of one character (Python str.encode at line 52). -/
def encChar (n : Nat) : List Nat :=
  if n < 0x80 then [n]
  else if n < 0x800 then [0xC0 + n / 64, 0x80 + n % 64]
  else if n < 0x10000 then [0xE0 + n / 4096, 0x80 + n / 64 % 64, 0x80 + n % 64]
  else [0xF0 + n / 262144, 0x80 + n / 4096 % 64, 0x80 + n / 64 % 64, 0x80 + n % 64]

/-- UTF-8 encoding of a model string. -/
def utf8Encode : Str → List Nat
  | [] => []
  | c :: cs => encChar c.toNat ++ utf8Encode cs

/-- Model of hashlib.md5(path.encode()).hexdigest() from source line 52. -/
def md5hexOfStr (p : Str) : Str := hexOfBytes (md5Digest (utf8Encode p))

/-- First eight hexadecimal characters of the digest of a path string
(source line 52 takes hexdigest()[:8]). -/
def pathHash8 (p : Str) : Str := (md5hexOfStr p).take 8

/-- Membership test in the lowercase hexadecimal alphabet. -/
def isHexChar (c : Char) : Bool := decide (c ∈ hexDigits)

/-! Naming algorithm of source lines 44-55. -/

/-- Candidate output filename: safe name plus the literal .txt. -/
def candName (f : Str) : Str := safeName f ++ str ".txt"

/-- Hash-suffixed fallback filename of source line 53. -/
def hashedName (f p : Str) : Str :=
  safeName f ++ str "_" ++ pathHash8 p ++ str ".txt"

/-- Final output filename of source lines 48-53: the candidate, or the
hash-suffixed fallback when the candidate is already in the seen set. -/
def newFilename (seen : List Str) (p f : Str) : Str :=
  if candName f ∈ seen then hashedName f p else candName f

/-! Directory trees and the walk of source lines 29-37.  A tree node
carries its regular file names and its named subdirectories.  The walk
is rooted at the source directory string; subdirectory paths are
accumulated as component lists and joined only when a full path string
is needed, exactly mirroring os.path.join(root, file). -/

mutual
inductive Tree where
  | node : List Str → Entries → Tree
inductive Entries where
  | nil : Entries
  | cons : Str → Tree → Entries → Entries
end

/-- Names of the immediate subdirectories of a directory. -/
def dirNames : Entries → List Str
  | .nil => []
  | .cons n _ rest => n :: dirNames rest

/-- Model of source lines 31-32: remove the first subdirectory named
deps from the descent set (Python list.remove removes the first hit). -/
def eraseDeps : Entries → Entries
  | .nil => .nil
  | .cons n t rest => if n = str "deps" then rest else .cons n t (eraseDeps rest)

/-- Absence of the path separator from a name. -/
def noSlash (s : Str) : Bool := decide ('/' ∉ s)

mutual
/-- Well-formedness of a directory tree as a real filesystem tree:
distinct slash-free file names and distinct slash-free subdirectory
names at every level. -/
def wfT : Tree → Bool
  | .node fs subs =>
    decide fs.Nodup && fs.all noSlash &&
    decide (dirNames subs).Nodup && (dirNames subs).all noSlash && wfE subs
/-- Well-formedness of a subdirectory list. -/
def wfE : Entries → Bool
  | .nil => true
  | .cons _ t rest => wfT t && wfE rest
end

/-- Walk pairs: accumulated directory components below the source root,
together with a file name found there. -/
abbrev Pr := List Str × Str

mutual
/-- Model of os.walk from source line 29 with the deps pruning of
lines 31-32: top-down, the root's files first, then each surviving
subdirectory in order. -/
def walkC : Tree → List Pr
  | .node fs subs => fs.map (fun f => ([], f)) ++ walkCL true subs
/-- Walk continuation over a subdirectory list.  The flag records
whether the first subdirectory named deps is still to be skipped
(Python list.remove removes exactly the first occurrence). -/
def walkCL : Bool → Entries → List Pr
  | _, .nil => []
  | b, .cons n t rest =>
    if b ∧ n = str "deps" then walkCL false rest
    else (walkC t).map (fun pr => (n :: pr.1, pr.2)) ++ walkCL b rest
end

mutual
/-- Presence of a file at a component path in a tree. -/
def hasFile : Tree → List Str → Str → Bool
  | .node fs _, [], f => decide (f ∈ fs)
  | .node _ subs, c :: cs, f => hasFileE subs c cs f
/-- Presence of a file below one of the listed subdirectories. -/
def hasFileE : Entries → Str → List Str → Str → Bool
  | .nil, _, _, _ => false
  | .cons n t rest, c, cs, f =>
    (decide (n = c) && hasFile t cs f) || hasFileE rest c cs f
end

/-- Root path of a walk pair: the source directory joined with the
accumulated components, as os.walk yields it. -/
def rootOf (s : Str) (comps : List Str) : Str := comps.foldl pathJoin s

/-- Full source path of a walk pair (os.path.join(root, file)). -/
def fullPath (s : Str) (pr : Pr) : Str := pathJoin (rootOf s pr.1) pr.2

/-- Right-nested join of components and file below a root. -/
def glue : List Str → Str → Str
  | [], f => f
  | c :: cs, f => c ++ '/' :: glue cs f

/-- Walk pairs surviving the extension filter of source line 36. -/
def matchedOf (t : Tree) : List Pr :=
  (walkC t).filter (fun pr => isElixir pr.2)

/-- Full paths of the matched files, in traversal order. -/
def matchedPaths (s : Str) (t : Tree) : List Str :=
  (matchedOf t).map (fullPath s)

/-- Names assigned by the naming algorithm along a run, starting from
a given seen set: each file gets newFilename against the current seen
set, and its name is inserted before the next file is considered. -/
def assignNames (s : Str) (seen : List Str) : List Pr → List Str
  | [] => []
  | pr :: rest =>
    let n := newFilename seen (fullPath s pr) pr.2
    n :: assignNames s (n :: seen) rest

/-! Permissive UTF-8 decoding, modelling open(..., errors='replace') of
source line 60: undecodable byte sequences become U+FFFD and decoding
never fails (the decoder is a total function). -/

/-- The Unicode replacement character. -/
def replCh : Char := Char.ofNat 0xFFFD

/-- Continuation byte test. -/
def isCont (b : Nat) : Bool := decide (0x80 ≤ b) && decide (b ≤ 0xBF)

/-- Range check for the second byte of a three-byte sequence. -/
def cont2 (b1 b2 : Nat) : Bool :=
  if b1 = 0xE0 then decide (0xA0 ≤ b2) && decide (b2 ≤ 0xBF)
  else if b1 = 0xED then decide (0x80 ≤ b2) && decide (b2 ≤ 0x9F)
  else isCont b2

/-- Range check for the second byte of a four-byte sequence. -/
def cont3 (b1 b2 : Nat) : Bool :=
  if b1 = 0xF0 then decide (0x90 ≤ b2) && decide (b2 ≤ 0xBF)
  else if b1 = 0xF4 then decide (0x80 ≤ b2) && decide (b2 ≤ 0x8F)
  else isCont b2

/-- One decoding step: the produced character and how many bytes beyond
the first are consumed (maximal-subpart replacement policy). -/
def decStep (b1 : Nat) (rest : List Nat) : Char × Nat :=
  if b1 < 0x80 then (Char.ofNat b1, 0)
  else if 0xC2 ≤ b1 ∧ b1 ≤ 0xDF then
    match rest with
    | b2 :: _ =>
      if isCont b2 then (Char.ofNat ((b1 - 0xC0) * 64 + (b2 - 0x80)), 1)
      else (replCh, 0)
    | [] => (replCh, 0)
  else if 0xE0 ≤ b1 ∧ b1 ≤ 0xEF then
    match rest with
    | b2 :: b3 :: _ =>
      if cont2 b1 b2 then
        if isCont b3 then
          (Char.ofNat ((b1 - 0xE0) * 4096 + (b2 - 0x80) * 64 + (b3 - 0x80)), 2)
        else (replCh, 1)
      else (replCh, 0)
    | [b2] => if cont2 b1 b2 then (replCh, 1) else (replCh, 0)
    | [] => (replCh, 0)
  else if 0xF0 ≤ b1 ∧ b1 ≤ 0xF4 then
    match rest with
    | b2 :: b3 :: b4 :: _ =>
      if cont3 b1 b2 then
        if isCont b3 then
          if isCont b4 then
            (Char.ofNat ((b1 - 0xF0) * 262144 + (b2 - 0x80) * 4096 +
              (b3 - 0x80) * 64 + (b4 - 0x80)), 3)
          else (replCh, 2)
        else (replCh, 1)
      else (replCh, 0)
    | [b2, b3] =>
      if cont3 b1 b2 then (if isCont b3 then (replCh, 2) else (replCh, 1))
      else (replCh, 0)
    | [b2] => if cont3 b1 b2 then (replCh, 1) else (replCh, 0)
    | [] => (replCh, 0)
  else (replCh, 0)

/-- Decoding loop with a structural fuel argument (one unit of fuel per
produced character; every step consumes at least one byte). -/
def decodeAux : Nat → List Nat → Str
  | 0, _ => []
  | _, [] => []
  | fuel + 1, b :: bs =>
    let p := decStep b bs
    p.1 :: decodeAux fuel (bs.drop p.2)

/-- Total permissive UTF-8 decoder: never fails, substitutes U+FFFD. -/
def utf8DecodeReplace (l : List Nat) : Str := decodeAux l.length l

/-! Run environment and effects.  The environment fixes the outcome of
every filesystem operation the program performs: directory creation,
log creation, per-file reads (bytes or an error message) and per-file
writes (None for success, or an error message). -/

structure Env where
  mkdirOk : Bool
  logOpenOk : Bool
  read : Str → Except Str (List Nat)
  write : Str → Option Str
  now : Str

/-- One line of the log body: source lines 76 and 79. -/
inductive LogEntry where
  | success : Str → Str → LogEntry
  | error : Str → Str → LogEntry
deriving DecidableEq

/-- Source path recorded in a log line. -/
def entrySrc : LogEntry → Str
  | .success p _ => p
  | .error p _ => p

/-- Output filename recorded in a log line (success lines only). -/
def entryName : LogEntry → Option Str
  | .success _ n => some n
  | .error _ _ => none

/-- The eighty-character separator line of source lines 66, 68, 73. -/
def sepLine : Str := List.replicate 80 '='

/-- Model of os.path.relpath(sourceFile, s) for the paths the walk
produces, which always extend s by a slash: drop the root and slash. -/
def relPath (full s : Str) : Str := full.drop (s.length + 1)

/-- Metadata header written by source lines 66-73, including the
final separator line and the blank line that ends the header. -/
def headerFor (env : Env) (s file sourceFile : Str) : Str :=
  sepLine ++ str "\n" ++
  str "FILE METADATA" ++ str "\n" ++
  sepLine ++ str "\n" ++
  str "Original filename: " ++ file ++ str "\n" ++
  str "Original path: " ++ relPath sourceFile s ++ str "\n" ++
  str "Original extension: " ++ pySuffix file ++ str "\n" ++
  str "Conversion date: " ++ env.now ++ str "\n" ++
  sepLine ++ str "\n" ++ str "\n"

/-- Full contents of one output file: header then the decoded content
verbatim (source line 74). -/
def outContent (env : Env) (s file sourceFile content : Str) : Str :=
  headerFor env s file sourceFile ++ content

/-- Processing of one matched file (source lines 39-79): compute the
final name, insert it into the seen set, then attempt read and write;
produce one log line either way, and an output file on success. -/
def processFile (env : Env) (s o : Str) (seen : List Str) (pr : Pr) :
    List Str × LogEntry × Option (Str × Str) :=
  let sourceFile := fullPath s pr
  let n := newFilename seen sourceFile pr.2
  let seen2 := n :: seen
  match env.read sourceFile with
  | .error m => (seen2, .error sourceFile m, none)
  | .ok bytes =>
    match env.write (pathJoin o n) with
    | some m => (seen2, .error sourceFile m, none)
    | none =>
      (seen2, .success sourceFile n,
        some (n, outContent env s pr.2 sourceFile (utf8DecodeReplace bytes)))

/-- Sequential processing of the matched files, threading the seen set
and accumulating log lines and output files in order. -/
def runFiles (env : Env) (s o : Str) : List Pr → List Str →
    List Str × List LogEntry × List (Str × Str)
  | [], seen => (seen, [], [])
  | pr :: rest, seen =>
    let r1 := processFile env s o seen pr
    let r2 := runFiles env s o rest r1.1
    (r2.1, r1.2.1 :: r2.2.1, r1.2.2.toList ++ r2.2.2)

/-- Result of a completed run: the four log header lines of source
lines 23-26 (os.path.abspath is modelled as the given path string),
the log body in order, and the output files (name and contents). -/
structure Run where
  logHeader : List Str
  entries : List LogEntry
  outputs : List (Str × Str)
deriving DecidableEq

/-- Model of convert_elixir_to_txt: directory creation (line 16) and
log creation (line 22) failures propagate and abort the run; otherwise
every matched file of the walk is processed in order. -/
def convert (env : Env) (s o : Str) (t : Tree) : Except Unit Run :=
  if env.mkdirOk = false then Except.error ()
  else if env.logOpenOk = false then Except.error ()
  else
    let r := runFiles env s o (matchedOf t) []
    Except.ok
      ⟨[str "Elixir Files Conversion Log",
        str "Generated on: " ++ env.now,
        str "Source directory: " ++ s,
        str "Output directory: " ++ o],
       r.2.1, r.2.2⟩

/-- Log entry predicted for one file, given its assigned output name:
an error line when the read or the write fails, a success line else. -/
def expectedEntry (env : Env) (s o : Str) (n : Str) (pr : Pr) : LogEntry :=
  match env.read (fullPath s pr) with
  | .error m => .error (fullPath s pr) m
  | .ok _ =>
    match env.write (pathJoin o n) with
    | some m => .error (fullPath s pr) m
    | none => .success (fullPath s pr) n

/-- Output file predicted for one file, given its assigned output name:
none when the read or the write fails, the annotated copy otherwise. -/
def expectedOut (env : Env) (s o : Str) (n : Str) (pr : Pr) : Option (Str × Str) :=
  match env.read (fullPath s pr) with
  | .error _ => none
  | .ok bytes =>
    match env.write (pathJoin o n) with
    | some _ => none
    | none => some (n, outContent env s pr.2 (fullPath s pr) (utf8DecodeReplace bytes))

/-! Concrete objects used by counterexamples and witnesses. -/

/-- An empty run, used as a match fallback. -/
def emptyRun : Run := ⟨[], [], []⟩

/-- Source tree of the collision counterexample: three files named
util.ex in subdirectories a, dd0e and d5e10.  The full paths
src/dd0e/util.ex and src/d5e10/util.ex have MD5 digests that agree on
their first eight hexadecimal characters. -/
def cexTree : Tree :=
  .node [] (.cons (str "a") (.node [str "util.ex"] .nil)
    (.cons (str "dd0e") (.node [str "util.ex"] .nil)
      (.cons (str "d5e10") (.node [str "util.ex"] .nil) .nil)))

/-- Witness tree: a matched and an unmatched root file, a deps subtree
with nested matched files, and a lib subtree with two matched files. -/
def wTree : Tree :=
  .node [str "main.ex", str "README.md"]
    (.cons (str "deps")
      (.node [str "dep.ex"] (.cons (str "sub") (.node [str "deep.ex"] .nil) .nil))
      (.cons (str "lib") (.node [str "foo.ex", str "foo.exs"] .nil) .nil))

/-- Environment in which every filesystem operation succeeds. -/
def wEnv : Env :=
  ⟨true, true, fun _ => Except.ok [104, 105, 10], fun _ => none,
   str "2024-01-01 00:00:00"⟩

/-- The completed run of wEnv over the collision tree cexTree. -/
def cexRun : Run :=
  match convert wEnv (str "src") (str "out") cexTree with
  | .ok r => r
  | .error _ => emptyRun

/-- Environment in which creating the output directory fails. -/
def wEnvBad : Env :=
  ⟨false, true, fun _ => Except.ok [104], fun _ => none, str "t"⟩

/-- Environment with different contents and timestamp than wEnv, for
the determinism witness. -/
def wEnv8 : Env :=
  ⟨true, true, fun _ => Except.ok [120, 121, 122], fun _ => none,
   str "2025-12-31 23:59:59"⟩

/-- Environment in which reading src/a/util.ex fails and every other
operation succeeds. -/
def wEnvFail : Env :=
  ⟨true, true,
   fun p => if p = str "src/a/util.ex" then Except.error (str "Permission denied")
            else Except.ok [111],
   fun _ => none, str "t"⟩

/-- Two-directory tree in which both files map to the safe name
util.ex, used for the fallback-after-failure witness. -/
def w10Tree : Tree :=
  .node [] (.cons (str "a") (.node [str "util.ex"] .nil)
    (.cons (str "b") (.node [str "util.ex"] .nil) .nil))

/-- The completed run of wEnv over wTree. -/
def wRun : Run :=
  match convert wEnv (str "src") (str "out") wTree with
  | .ok r => r
  | .error _ => emptyRun

/-- The completed run of wEnv8 over wTree. -/
def wRun8 : Run :=
  match convert wEnv8 (str "src") (str "out") wTree with
  | .ok r => r
  | .error _ => emptyRun

/-- The completed run of wEnvFail over w10Tree. -/
def wRunFail : Run :=
  match convert wEnvFail (str "src") (str "out") w10Tree with
  | .ok r => r
  | .error _ => emptyRun

/-! Induction motives for the mutual walk lemmas below.  Each pair of
definitions states one property of the traversal, once for trees and
once for subdirectory lists. -/

/-- Slash-freeness of one walk pair. -/
def SlashFreeP (pr : Pr) : Prop :=
  (∀ c ∈ pr.1, noSlash c = true) ∧ noSlash pr.2 = true

/-- Tree motive: every walk pair is slash-free. -/
def WalkSfT (t : Tree) : Prop :=
  wfT t = true → ∀ pr ∈ walkC t, SlashFreeP pr

/-- Entries motive: every walk pair is slash-free. -/
def WalkSfE (l : Entries) : Prop :=
  wfE l = true → (∀ n ∈ dirNames l, noSlash n = true) →
  ∀ b, ∀ pr ∈ walkCL b l, SlashFreeP pr

/-- Tree motive: the walk pairs are distinct. -/
def WalkNdT (t : Tree) : Prop := wfT t = true → (walkC t).Nodup

/-- Entries motive: the walk pairs are distinct. -/
def WalkNdE (l : Entries) : Prop :=
  wfE l = true → (dirNames l).Nodup → ∀ b, (walkCL b l).Nodup

/-- Tree motive: no walk pair passes through a deps directory. -/
def WalkDepT (t : Tree) : Prop :=
  wfT t = true → ∀ pr ∈ walkC t, str "deps" ∉ pr.1

/-- Entries motive: no walk pair passes through a deps directory. -/
def WalkDepE (l : Entries) : Prop :=
  wfE l = true → (dirNames l).Nodup →
  ∀ b, (b = false → str "deps" ∉ dirNames l) →
  ∀ pr ∈ walkCL b l, str "deps" ∉ pr.1

/-- Tree motive: every deps-free file position is visited. -/
def WalkCplT (t : Tree) : Prop :=
  wfT t = true → ∀ comps f, hasFile t comps f = true →
  str "deps" ∉ comps → (comps, f) ∈ walkC t

/-- Entries motive: every deps-free file position is visited. -/
def WalkCplE (l : Entries) : Prop :=
  wfE l = true → ∀ c cs f, hasFileE l c cs f = true →
  c ≠ str "deps" → str "deps" ∉ cs → ∀ b, (c :: cs, f) ∈ walkCL b l

/-! Helper lemmas about string shapes and the naming functions. -/

theorem startsWithL_iff : ∀ p s : Str, startsWithL p s = true ↔ ∃ r, s = p ++ r
  | [], s => by simp [startsWithL]
  | _ :: _, [] => by
    simp only [startsWithL, Bool.false_eq_true, false_iff]
    rintro ⟨r, h⟩
    exact List.cons_ne_nil _ _ h.symm
  | a :: as, b :: bs => by
    simp only [startsWithL, Bool.and_eq_true, decide_eq_true_eq]
    constructor
    · rintro ⟨rfl, h⟩
      obtain ⟨r, rfl⟩ := (startsWithL_iff as bs).1 h
      exact ⟨r, rfl⟩
    · rintro ⟨r, h⟩
      rw [List.cons_append] at h
      injection h with h1 h2
      exact ⟨h1.symm, (startsWithL_iff as bs).2 ⟨r, h2⟩⟩

theorem endsWith_decomp {s suf : Str} (h : endsWithL s suf = true) :
    ∃ pre, s = pre ++ suf := by
  obtain ⟨r, hr⟩ := (startsWithL_iff suf.reverse s.reverse).1 h
  refine ⟨r.reverse, ?_⟩
  have h2 := congrArg List.reverse hr
  simpa using h2

theorem lastDotPos_append {r : Str} (k : Nat) (hk : lastDotPos r = some k) :
    ∀ l : Str, lastDotPos (l ++ r) = some (l.length + k)
  | [] => by simpa using hk
  | c :: cs => by
    have ih := lastDotPos_append k hk cs
    simp only [List.cons_append, lastDotPos, List.append_eq, ih, List.length_cons]
    exact congrArg some (by omega)

theorem pySplitExt_ex {pre : Str} (hp : pre ≠ []) :
    pySplitExt (pre ++ str ".ex") = (pre, str ".ex") := by
  have hdot : lastDotPos (str ".ex") = some 0 := rfl
  have h1 : lastDotPos (pre ++ str ".ex") = some pre.length := by
    simpa using lastDotPos_append 0 hdot pre
  have hpos : 0 < pre.length := List.length_pos.2 hp
  have hlen : (pre ++ str ".ex").length = pre.length + 3 := by
    simp [List.length_append, str]
  simp only [pySplitExt, h1, hlen]
  rw [if_pos ⟨hpos, by omega⟩]
  rw [List.take_left, List.drop_left]

theorem pySplitExt_exs {pre : Str} (hp : pre ≠ []) :
    pySplitExt (pre ++ str ".exs") = (pre, str ".exs") := by
  have hdot : lastDotPos (str ".exs") = some 0 := rfl
  have h1 : lastDotPos (pre ++ str ".exs") = some pre.length := by
    simpa using lastDotPos_append 0 hdot pre
  have hpos : 0 < pre.length := List.length_pos.2 hp
  have hlen : (pre ++ str ".exs").length = pre.length + 4 := by
    simp [List.length_append, str]
  simp only [pySplitExt, h1, hlen]
  rw [if_pos ⟨hpos, by omega⟩]
  rw [List.take_left, List.drop_left]

theorem elixir_shape {f : Str} (h : isElixir f = true) :
    (∃ pre, pre ≠ [] ∧ f = pre ++ str ".ex") ∨
    (∃ pre, pre ≠ [] ∧ f = pre ++ str ".exs") ∨
    f = str ".ex" ∨ f = str ".exs" := by
  unfold isElixir at h
  rcases Bool.or_eq_true_iff.1 h with h1 | h1
  · obtain ⟨pre, rfl⟩ := endsWith_decomp h1
    by_cases hp : pre = []
    · subst hp
      exact Or.inr (Or.inr (Or.inl rfl))
    · exact Or.inl ⟨pre, hp, rfl⟩
  · obtain ⟨pre, rfl⟩ := endsWith_decomp h1
    by_cases hp : pre = []
    · subst hp
      exact Or.inr (Or.inr (Or.inr rfl))
    · exact Or.inr (Or.inl ⟨pre, hp, rfl⟩)

theorem safeName_cases {f : Str} (h : isElixir f = true) :
    (∃ b, safeName f = safeBase b ++ str ".ex") ∨
    (∃ b, safeName f = safeBase b ++ str ".exs") ∨
    safeName f = str "_ex" ∨ safeName f = str "_exs" := by
  rcases elixir_shape h with ⟨pre, hp, rfl⟩ | ⟨pre, hp, rfl⟩ | rfl | rfl
  · exact Or.inl ⟨pre, by simp [safeName, pyStem, pySuffix, pySplitExt_ex hp]⟩
  · exact Or.inr (Or.inl ⟨pre, by simp [safeName, pyStem, pySuffix, pySplitExt_exs hp]⟩)
  · exact Or.inr (Or.inr (Or.inl (by decide)))
  · exact Or.inr (Or.inr (Or.inr (by decide)))

theorem hexOfBytes_length : ∀ l : List Nat, (hexOfBytes l).length = 2 * l.length
  | [] => rfl
  | b :: bs => by
    simp only [hexOfBytes, List.length_cons, hexOfBytes_length bs]
    omega

theorem md5Digest_length (msg : List Nat) : (md5Digest msg).length = 16 := by
  unfold md5Digest
  rcases hmc : md5Core msg with ⟨a, b, c, d⟩
  simp [leBytes4]

theorem pathHash8_length (p : Str) : (pathHash8 p).length = 8 := by
  unfold pathHash8 md5hexOfStr
  rw [List.length_take, hexOfBytes_length, md5Digest_length]
  omega

theorem getD_mem_or {α : Type} : ∀ (l : List α) (n : Nat) (d : α),
    l.getD n d ∈ l ∨ l.getD n d = d
  | [], _, _ => Or.inr rfl
  | a :: _, 0, _ => Or.inl (List.mem_cons_self _ _)
  | _ :: as, n + 1, d => by
    rcases getD_mem_or as n d with h | h
    · exact Or.inl (List.mem_cons_of_mem _ h)
    · exact Or.inr h

theorem hexChar_mem (n : Nat) : hexChar n ∈ hexDigits := by
  rcases getD_mem_or hexDigits n '0' with h | h
  · exact h
  · unfold hexChar
    rw [h]
    decide

theorem hexOfBytes_mem {c : Char} : ∀ {l : List Nat}, c ∈ hexOfBytes l → c ∈ hexDigits
  | [], h => absurd h (List.not_mem_nil c)
  | b :: bs, h => by
    simp only [hexOfBytes, List.mem_cons] at h
    rcases h with rfl | rfl | h
    · exact hexChar_mem _
    · exact hexChar_mem _
    · exact hexOfBytes_mem h

theorem pathHash8_hexDigit {p : Str} {c : Char} (h : c ∈ pathHash8 p) :
    c ∈ hexDigits :=
  hexOfBytes_mem (List.mem_of_mem_take h)

theorem cand_ne_hashed {f1 f2 p2 : Str} (h1 : isElixir f1 = true) :
    candName f1 ≠ hashedName f2 p2 := by
  intro he
  unfold candName hashedName at he
  have hsafe : safeName f1 = safeName f2 ++ str "_" ++ pathHash8 p2 :=
    (List.append_inj' he rfl).1
  have hrev := congrArg List.reverse hsafe
  simp only [List.reverse_append] at hrev
  have hmem : ∀ i : Nat, i < 8 →
      ∀ c, (safeName f1).reverse[i]? = some c → c ∈ pathHash8 p2 := by
    intro i hi c hc
    rw [hrev] at hc
    rw [List.getElem?_append_left (by
      rw [List.length_reverse, pathHash8_length]; omega)] at hc
    have hm := List.getElem?_mem hc
    simpa using hm
  rcases safeName_cases h1 with ⟨b, hb⟩ | ⟨b, hb⟩ | hb | hb
  · have hr3 : List.reverse (str ".ex") = ['x', 'e', '.'] := by decide
    have hidx : (safeName f1).reverse[2]? = some '.' := by
      rw [hb, List.reverse_append, hr3]
      rw [List.getElem?_append_left (by simp)]
      decide
    have hhex := pathHash8_hexDigit (hmem 2 (by omega) '.' hidx)
    revert hhex
    decide
  · have hr4 : List.reverse (str ".exs") = ['s', 'x', 'e', '.'] := by decide
    have hidx : (safeName f1).reverse[3]? = some '.' := by
      rw [hb, List.reverse_append, hr4]
      rw [List.getElem?_append_left (by simp)]
      decide
    have hhex := pathHash8_hexDigit (hmem 3 (by omega) '.' hidx)
    revert hhex
    decide
  · have hlen := congrArg List.length hsafe
    rw [hb] at hlen
    simp [List.length_append, pathHash8_length, str] at hlen
  · have hlen := congrArg List.length hsafe
    rw [hb] at hlen
    simp [List.length_append, pathHash8_length, str] at hlen

theorem hashedName_inj {f1 p1 f2 p2 : Str} (h : hashedName f1 p1 = hashedName f2 p2) :
    safeName f1 = safeName f2 ∧ pathHash8 p1 = pathHash8 p2 := by
  unfold hashedName at h
  have h1 := (List.append_inj' h rfl).1
  have h2 := List.append_inj' h1 (by rw [pathHash8_length, pathHash8_length])
  exact ⟨(List.append_inj' h2.1 rfl).1, h2.2⟩

/-! Lemmas about the per-run name assignment. -/

theorem assignNames_length (s : Str) :
    ∀ (prs : List Pr) (seen : List Str), (assignNames s seen prs).length = prs.length
  | [], _ => rfl
  | _ :: rest, seen => by
    simp [assignNames, assignNames_length s rest]

theorem newFilename_cases (seen : List Str) (p f : Str) :
    newFilename seen p f = hashedName f p ∨
    (newFilename seen p f = candName f ∧ newFilename seen p f ∉ seen) := by
  unfold newFilename
  split
  · exact Or.inl rfl
  · next h => exact Or.inr ⟨rfl, h⟩

theorem mem_assignNames {s : Str} :
    ∀ {prs : List Pr} {seen : List Str} {x : Str}, x ∈ assignNames s seen prs →
    ∃ pr, pr ∈ prs ∧
      (x = hashedName pr.2 (fullPath s pr) ∨ (x = candName pr.2 ∧ x ∉ seen))
  | [], _, x, h => absurd h (List.not_mem_nil x)
  | pr :: rest, seen, x, h => by
    simp only [assignNames, List.mem_cons] at h
    rcases h with rfl | h
    · refine ⟨pr, List.mem_cons_self _ _, ?_⟩
      rcases newFilename_cases seen (fullPath s pr) pr.2 with hc | ⟨hc, hn⟩
      · exact Or.inl hc
      · exact Or.inr ⟨hc, hn⟩
    · obtain ⟨pr2, hm, hsh⟩ := mem_assignNames h
      refine ⟨pr2, List.mem_cons_of_mem _ hm, ?_⟩
      rcases hsh with h2 | ⟨h2, hn⟩
      · exact Or.inl h2
      · exact Or.inr ⟨h2, fun hx => hn (List.mem_cons_of_mem _ hx)⟩

theorem assignNames_nodup (s : Str) :
    ∀ (prs : List Pr) (seen : List Str),
    (prs.map (fullPath s)).Nodup →
    (∀ pr ∈ prs, isElixir pr.2 = true) →
    (∀ pr1 ∈ prs, ∀ pr2 ∈ prs, fullPath s pr1 ≠ fullPath s pr2 →
      safeName pr1.2 = safeName pr2.2 →
      pathHash8 (fullPath s pr1) ≠ pathHash8 (fullPath s pr2)) →
    (assignNames s seen prs).Nodup
  | [], _, _, _, _ => List.nodup_nil
  | pr :: rest, seen, hpaths, helix, hhash => by
    rw [List.map_cons, List.nodup_cons] at hpaths
    simp only [assignNames]
    rw [List.nodup_cons]
    refine ⟨?_, ?_⟩
    · intro hmem
      obtain ⟨pr2, hm2, hsh⟩ := mem_assignNames hmem
      have hne : fullPath s pr ≠ fullPath s pr2 := by
        intro hp
        exact hpaths.1 (hp ▸ List.mem_map_of_mem (fullPath s) hm2)
      rcases hsh with h2 | ⟨_, hn⟩
      · rcases newFilename_cases seen (fullPath s pr) pr.2 with h1 | ⟨h1, _⟩
        · have hinj := hashedName_inj (h1.symm.trans h2)
          exact hhash pr (List.mem_cons_self _ _) pr2
            (List.mem_cons_of_mem _ hm2) hne hinj.1 hinj.2
        · exact cand_ne_hashed (helix pr (List.mem_cons_self _ _)) (h1.symm.trans h2)
      · exact hn (List.mem_cons_self _ _)
    · exact assignNames_nodup s rest _ hpaths.2
        (fun q hq => helix q (List.mem_cons_of_mem _ hq))
        (fun q1 hq1 q2 hq2 => hhash q1 (List.mem_cons_of_mem _ hq1)
          q2 (List.mem_cons_of_mem _ hq2))

/-! Lemmas about the directory walk. -/

theorem walkCL_eraseDeps : ∀ l : Entries, walkCL true l = walkCL false (eraseDeps l)
  | .nil => rfl
  | .cons n t rest => by
    simp only [walkCL, eraseDeps]
    by_cases h : n = str "deps"
    · rw [if_pos ⟨trivial, h⟩, if_pos h]
    · rw [if_neg (fun hc => h hc.2), if_neg h]
      simp only [walkCL]
      rw [if_neg (fun hc => nomatch hc.1)]
      rw [walkCL_eraseDeps rest]

theorem wfT_parts {fs : List Str} {subs : Entries}
    (h : wfT (.node fs subs) = true) :
    fs.Nodup ∧ (∀ f ∈ fs, noSlash f = true) ∧ (dirNames subs).Nodup ∧
    (∀ n ∈ dirNames subs, noSlash n = true) ∧ wfE subs = true := by
  simp only [wfT, Bool.and_eq_true, decide_eq_true_eq, List.all_eq_true] at h
  exact ⟨h.1.1.1.1, h.1.1.1.2, h.1.1.2, h.1.2, h.2⟩

theorem wfE_parts {n : Str} {t : Tree} {rest : Entries}
    (h : wfE (.cons n t rest) = true) : wfT t = true ∧ wfE rest = true := by
  simpa only [wfE, Bool.and_eq_true] using h

theorem walkCL_heads : ∀ (l : Entries) (b : Bool) (pr : Pr),
    pr ∈ walkCL b l → ∃ n tl, pr.1 = n :: tl ∧ n ∈ dirNames l
  | .nil, b, pr, h => absurd h (by simp [walkCL])
  | .cons n t rest, b, pr, h => by
    simp only [walkCL] at h
    split at h
    · obtain ⟨m, tl, he, hm⟩ := walkCL_heads rest false pr h
      exact ⟨m, tl, he, List.mem_cons_of_mem _ hm⟩
    · rcases List.mem_append.1 h with h | h
      · obtain ⟨q, _, rfl⟩ := List.mem_map.1 h
        exact ⟨n, q.1, rfl, List.mem_cons_self _ _⟩
      · obtain ⟨m, tl, he, hm⟩ := walkCL_heads rest b pr h
        exact ⟨m, tl, he, List.mem_cons_of_mem _ hm⟩

theorem walkSf_node : ∀ (fs : List Str) (subs : Entries),
    WalkSfE subs → WalkSfT (.node fs subs) := by
  intro fs subs ih hwf pr hpr
  obtain ⟨_, hfs, _, hns, hwe⟩ := wfT_parts hwf
  rcases List.mem_append.1 hpr with h | h
  · obtain ⟨f, hf, rfl⟩ := List.mem_map.1 h
    exact ⟨by simp, hfs f hf⟩
  · exact ih hwe hns true pr h

theorem walkSf_nil : WalkSfE .nil := by
  intro _ _ b pr hpr
  simp [walkCL] at hpr

theorem walkSf_cons : ∀ (n : Str) (t : Tree) (rest : Entries),
    WalkSfT t → WalkSfE rest → WalkSfE (.cons n t rest) := by
  intro n t rest iht ihr hwf hall b pr hpr
  obtain ⟨hwt, hwr⟩ := wfE_parts hwf
  have hn : noSlash n = true := hall n (List.mem_cons_self _ _)
  have hall2 : ∀ m ∈ dirNames rest, noSlash m = true :=
    fun m hm => hall m (List.mem_cons_of_mem _ hm)
  simp only [walkCL] at hpr
  split at hpr
  · exact ihr hwr hall2 false pr hpr
  · rcases List.mem_append.1 hpr with h | h
    · obtain ⟨q, hq, rfl⟩ := List.mem_map.1 h
      obtain ⟨hq1, hq2⟩ := iht hwt q hq
      refine ⟨?_, hq2⟩
      intro c hc
      rcases List.mem_cons.1 hc with rfl | hc
      · exact hn
      · exact hq1 c hc
    · exact ihr hwr hall2 b pr h

theorem walkSf_T : ∀ t : Tree, WalkSfT t :=
  fun t => @Tree.rec WalkSfT WalkSfE walkSf_node walkSf_nil walkSf_cons t

theorem walkSf_E : ∀ l : Entries, WalkSfE l :=
  fun l => @Entries.rec WalkSfT WalkSfE walkSf_node walkSf_nil walkSf_cons l

theorem walkNd_node : ∀ (fs : List Str) (subs : Entries),
    WalkNdE subs → WalkNdT (.node fs subs) := by
  intro fs subs ih hwf
  obtain ⟨hnd, _, hnds, _, hwe⟩ := wfT_parts hwf
  refine List.Nodup.append ?_ (ih hwe hnds true) ?_
  · exact List.Nodup.map (fun a b hab => congrArg Prod.snd hab) hnd
  · intro x hx1 hx2
    obtain ⟨f, _, rfl⟩ := List.mem_map.1 hx1
    obtain ⟨m, tl, he, _⟩ := walkCL_heads subs true _ hx2
    exact List.cons_ne_nil m tl he.symm

theorem walkNd_nil : WalkNdE .nil := by
  intro _ _ b
  simp [walkCL]

theorem walkNd_cons : ∀ (n : Str) (t : Tree) (rest : Entries),
    WalkNdT t → WalkNdE rest → WalkNdE (.cons n t rest) := by
  intro n t rest iht ihr hwf hnd b
  obtain ⟨hwt, hwr⟩ := wfE_parts hwf
  simp only [dirNames] at hnd
  rw [List.nodup_cons] at hnd
  simp only [walkCL]
  split
  · exact ihr hwr hnd.2 false
  · refine List.Nodup.append ?_ (ihr hwr hnd.2 b) ?_
    · refine List.Nodup.map ?_ (iht hwt)
      intro a c hac
      simp only [Prod.mk.injEq, List.cons.injEq] at hac
      exact Prod.ext hac.1.2 hac.2
    · intro x hx1 hx2
      obtain ⟨q, _, rfl⟩ := List.mem_map.1 hx1
      obtain ⟨m, tl, he, hm⟩ := walkCL_heads rest b _ hx2
      simp only [List.cons.injEq] at he
      exact hnd.1 (he.1 ▸ hm)

theorem walkNd_T : ∀ t : Tree, WalkNdT t :=
  fun t => @Tree.rec WalkNdT WalkNdE walkNd_node walkNd_nil walkNd_cons t

theorem walkNd_E : ∀ l : Entries, WalkNdE l :=
  fun l => @Entries.rec WalkNdT WalkNdE walkNd_node walkNd_nil walkNd_cons l

theorem walkDep_node : ∀ (fs : List Str) (subs : Entries),
    WalkDepE subs → WalkDepT (.node fs subs) := by
  intro fs subs ih hwf pr hpr
  obtain ⟨_, _, hnds, _, hwe⟩ := wfT_parts hwf
  rcases List.mem_append.1 hpr with h | h
  · obtain ⟨f, _, rfl⟩ := List.mem_map.1 h
    simp
  · exact ih hwe hnds true (fun hb => nomatch hb) pr h

theorem walkDep_nil : WalkDepE .nil := by
  intro _ _ b _ pr hpr
  simp [walkCL] at hpr

theorem walkDep_cons : ∀ (n : Str) (t : Tree) (rest : Entries),
    WalkDepT t → WalkDepE rest → WalkDepE (.cons n t rest) := by
  intro n t rest iht ihr hwf hnd b hbf pr hpr
  obtain ⟨hwt, hwr⟩ := wfE_parts hwf
  simp only [dirNames] at hnd
  rw [List.nodup_cons] at hnd
  simp only [walkCL] at hpr
  split at hpr
  · next hcond =>
    refine ihr hwr hnd.2 false (fun _ => ?_) pr hpr
    exact hcond.2 ▸ hnd.1
  · next hcond =>
    have hne : n ≠ str "deps" := by
      intro heq
      cases b
      · have := hbf rfl
        simp only [dirNames, List.mem_cons] at this
        exact this (Or.inl heq.symm)
      · exact hcond ⟨rfl, heq⟩
    rcases List.mem_append.1 hpr with h | h
    · obtain ⟨q, hq, rfl⟩ := List.mem_map.1 h
      simp only [List.mem_cons, not_or]
      exact ⟨fun hd => hne hd.symm, iht hwt q hq⟩
    · refine ihr hwr hnd.2 b (fun hb => ?_) pr h
      have := hbf hb
      simp only [dirNames, List.mem_cons, not_or] at this
      exact this.2

theorem walkDep_T : ∀ t : Tree, WalkDepT t :=
  fun t => @Tree.rec WalkDepT WalkDepE walkDep_node walkDep_nil walkDep_cons t

theorem walkDep_E : ∀ l : Entries, WalkDepE l :=
  fun l => @Entries.rec WalkDepT WalkDepE walkDep_node walkDep_nil walkDep_cons l

theorem walkCpl_node : ∀ (fs : List Str) (subs : Entries),
    WalkCplE subs → WalkCplT (.node fs subs) := by
  intro fs subs ih hwf comps f hhf hdep
  obtain ⟨_, _, _, _, hwe⟩ := wfT_parts hwf
  cases comps with
  | nil =>
    simp only [hasFile, decide_eq_true_eq] at hhf
    exact List.mem_append.2 (Or.inl (List.mem_map_of_mem _ hhf))
  | cons c cs =>
    simp only [hasFile] at hhf
    simp only [List.mem_cons, not_or] at hdep
    exact List.mem_append.2
      (Or.inr (ih hwe c cs f hhf (fun h => hdep.1 h.symm) hdep.2 true))

theorem walkCpl_nil : WalkCplE .nil := by
  intro _ c cs f hhf
  simp [hasFileE] at hhf

theorem walkCpl_cons : ∀ (n : Str) (t : Tree) (rest : Entries),
    WalkCplT t → WalkCplE rest → WalkCplE (.cons n t rest) := by
  intro n t rest iht ihr hwf c cs f hhf hne hcs b
  obtain ⟨hwt, hwr⟩ := wfE_parts hwf
  simp only [hasFileE, Bool.or_eq_true_iff, Bool.and_eq_true,
    decide_eq_true_eq] at hhf
  simp only [walkCL]
  rcases hhf with ⟨rfl, hft⟩ | hr
  · split
    · next hcond => exact absurd hcond.2 hne
    · next _ =>
      refine List.mem_append.2 (Or.inl ?_)
      have hm := iht hwt cs f hft hcs
      exact List.mem_map_of_mem (fun pr => (n :: pr.1, pr.2)) hm
  · split
    · exact ihr hwr c cs f hr hne hcs false
    · exact List.mem_append.2 (Or.inr (ihr hwr c cs f hr hne hcs b))

theorem walkCpl_T : ∀ t : Tree, WalkCplT t :=
  fun t => @Tree.rec WalkCplT WalkCplE walkCpl_node walkCpl_nil walkCpl_cons t

theorem walkCpl_E : ∀ l : Entries, WalkCplE l :=
  fun l => @Entries.rec WalkCplT WalkCplE walkCpl_node walkCpl_nil walkCpl_cons l

/-! Injectivity of full paths on slash-free walk pairs. -/

theorem fullPath_glue : ∀ (comps : List Str) (s f : Str),
    fullPath s (comps, f) = s ++ '/' :: glue comps f
  | [], _, _ => rfl
  | c :: cs, s, f => by
    have ih := fullPath_glue cs (pathJoin s c) f
    show fullPath (pathJoin s c) (cs, f) = s ++ '/' :: glue (c :: cs) f
    rw [ih]
    simp [pathJoin, glue, List.append_assoc]

theorem slash_split : ∀ {a : Str} {b x y : Str},
    noSlash a = true → noSlash b = true →
    a ++ '/' :: x = b ++ '/' :: y → a = b ∧ x = y
  | [], [], x, y, _, _, h => by
    simpa using h
  | [], c :: bs, x, y, _, hb, h => by
    simp only [List.nil_append, List.cons_append, List.cons.injEq] at h
    unfold noSlash at hb
    rw [decide_eq_true_iff] at hb
    exact absurd (h.1 ▸ List.mem_cons_self c bs) hb
  | a0 :: as, [], x, y, ha, _, h => by
    simp only [List.nil_append, List.cons_append, List.cons.injEq] at h
    unfold noSlash at ha
    rw [decide_eq_true_iff] at ha
    exact absurd (h.1 ▸ List.mem_cons_self a0 as) ha
  | a0 :: as, b0 :: bs, x, y, ha, hb, h => by
    simp only [List.cons_append, List.cons.injEq] at h
    have ha2 : noSlash as = true := by
      unfold noSlash at ha ⊢
      rw [decide_eq_true_iff] at ha
      rw [decide_eq_true_iff]
      exact fun hm => ha (List.mem_cons_of_mem _ hm)
    have hb2 : noSlash bs = true := by
      unfold noSlash at hb ⊢
      rw [decide_eq_true_iff] at hb
      rw [decide_eq_true_iff]
      exact fun hm => hb (List.mem_cons_of_mem _ hm)
    obtain ⟨h1, h2⟩ := slash_split ha2 hb2 h.2
    exact ⟨by rw [h.1, h1], h2⟩

theorem glue_inj : ∀ {c1 : List Str} {f1 : Str} {c2 : List Str} {f2 : Str},
    (∀ c ∈ c1, noSlash c = true) → noSlash f1 = true →
    (∀ c ∈ c2, noSlash c = true) → noSlash f2 = true →
    glue c1 f1 = glue c2 f2 → c1 = c2 ∧ f1 = f2
  | [], f1, [], f2, _, _, _, _, h => ⟨rfl, h⟩
  | [], f1, n :: cs, f2, _, hf1, hc2, _, h => by
    unfold noSlash at hf1
    rw [decide_eq_true_iff] at hf1
    refine absurd ?_ hf1
    rw [show glue [] f1 = f1 from rfl] at h
    rw [h]
    simp [glue]
  | n :: cs, f1, [], f2, hc1, _, _, hf2, h => by
    unfold noSlash at hf2
    rw [decide_eq_true_iff] at hf2
    refine absurd ?_ hf2
    rw [show glue [] f2 = f2 from rfl] at h
    rw [← h]
    simp [glue]
  | n1 :: cs1, f1, n2 :: cs2, f2, hc1, hf1, hc2, hf2, h => by
    simp only [glue] at h
    obtain ⟨h1, h2⟩ := slash_split (hc1 n1 (List.mem_cons_self _ _))
      (hc2 n2 (List.mem_cons_self _ _)) h
    obtain ⟨h3, h4⟩ := glue_inj (fun c hc => hc1 c (List.mem_cons_of_mem _ hc)) hf1
      (fun c hc => hc2 c (List.mem_cons_of_mem _ hc)) hf2 h2
    exact ⟨by rw [h1, h3], h4⟩

theorem fullPath_inj {s : Str} {pr1 pr2 : Pr} (sf1 : SlashFreeP pr1)
    (sf2 : SlashFreeP pr2) (h : fullPath s pr1 = fullPath s pr2) : pr1 = pr2 := by
  obtain ⟨c1, f1⟩ := pr1
  obtain ⟨c2, f2⟩ := pr2
  rw [fullPath_glue, fullPath_glue] at h
  have h2 := List.append_cancel_left h
  injection h2 with _ h3
  obtain ⟨h4, h5⟩ := glue_inj sf1.1 sf1.2 sf2.1 sf2.2 h3
  exact Prod.ext h4 h5

theorem walk_paths_nodup (s : Str) {t : Tree} (hwf : wfT t = true) :
    ((walkC t).map (fullPath s)).Nodup := by
  have hp : (walkC t).Nodup := walkNd_T t hwf
  have hsf := walkSf_T t hwf
  rw [List.Nodup]
  rw [List.pairwise_map]
  refine List.Pairwise.imp_of_mem ?_ hp
  intro a b ha hb hne heq
  exact hne (fullPath_inj (hsf a ha) (hsf b hb) heq)

theorem matchedOf_subset {t : Tree} {pr : Pr} (h : pr ∈ matchedOf t) :
    pr ∈ walkC t ∧ isElixir pr.2 = true := by
  unfold matchedOf at h
  rw [List.mem_filter] at h
  exact h

theorem matchedPaths_nodup (s : Str) {t : Tree} (hwf : wfT t = true) :
    (matchedPaths s t).Nodup := by
  unfold matchedPaths matchedOf
  exact List.Nodup.sublist ((List.filter_sublist _).map _) (walk_paths_nodup s hwf)

/-! Lemmas relating runFiles and convert to the predicted entries. -/

theorem processFile_eq (env : Env) (s o : Str) (seen : List Str) (pr : Pr) :
    processFile env s o seen pr =
      (newFilename seen (fullPath s pr) pr.2 :: seen,
       expectedEntry env s o (newFilename seen (fullPath s pr) pr.2) pr,
       expectedOut env s o (newFilename seen (fullPath s pr) pr.2) pr) := by
  cases hr : env.read (fullPath s pr) with
  | error m => simp [processFile, expectedEntry, expectedOut, hr]
  | ok bytes =>
    cases hw : env.write (pathJoin o (newFilename seen (fullPath s pr) pr.2)) with
    | none => simp [processFile, expectedEntry, expectedOut, hr, hw]
    | some m => simp [processFile, expectedEntry, expectedOut, hr, hw]

theorem filterMap_id_cons {α : Type} (x : Option α) (xs : List (Option α)) :
    List.filterMap id (x :: xs) = x.toList ++ List.filterMap id xs := by
  cases x <;> simp

theorem runFiles_eq (env : Env) (s o : Str) :
    ∀ (l : List Pr) (seen : List Str),
    runFiles env s o l seen =
      ((assignNames s seen l).reverse ++ seen,
       List.zipWith (expectedEntry env s o) (assignNames s seen l) l,
       (List.zipWith (expectedOut env s o) (assignNames s seen l) l).filterMap id)
  | [], seen => rfl
  | pr :: rest, seen => by
    have ih := runFiles_eq env s o rest
      (newFilename seen (fullPath s pr) pr.2 :: seen)
    simp only [runFiles, processFile_eq, ih, assignNames, List.zipWith,
      filterMap_id_cons, List.reverse_cons, List.append_assoc,
      List.singleton_append]

theorem convert_ok_parts {env : Env} {s o : Str} {t : Tree} {run : Run}
    (h : convert env s o t = Except.ok run) :
    run.entries = List.zipWith (expectedEntry env s o)
      (assignNames s [] (matchedOf t)) (matchedOf t) ∧
    run.outputs = (List.zipWith (expectedOut env s o)
      (assignNames s [] (matchedOf t)) (matchedOf t)).filterMap id := by
  unfold convert at h
  split at h
  · exact absurd h (by simp)
  · split at h
    · exact absurd h (by simp)
    · rw [runFiles_eq] at h
      injection h with h2
      rw [← h2]
      exact ⟨rfl, rfl⟩

theorem expectedEntry_src (env : Env) (s o n : Str) (pr : Pr) :
    entrySrc (expectedEntry env s o n pr) = fullPath s pr := by
  unfold expectedEntry
  cases env.read (fullPath s pr) with
  | error m => rfl
  | ok bytes =>
    cases env.write (pathJoin o n) with
    | none => rfl
    | some m => rfl

theorem expectedEntry_name (env : Env) (s o n : Str) (pr : Pr) :
    entryName (expectedEntry env s o n pr) = none ∨
    entryName (expectedEntry env s o n pr) = some n := by
  unfold expectedEntry
  cases env.read (fullPath s pr) with
  | error m => exact Or.inl rfl
  | ok bytes =>
    cases env.write (pathJoin o n) with
    | none => exact Or.inr rfl
    | some m => exact Or.inl rfl

theorem expectedEntry_read_error {env : Env} {s : Str} {pr : Pr} {m : Str}
    (o n : Str) (h : env.read (fullPath s pr) = Except.error m) :
    expectedEntry env s o n pr = .error (fullPath s pr) m := by
  unfold expectedEntry
  rw [h]

theorem expectedEntry_write_error {env : Env} {s o n : Str} {pr : Pr}
    {bytes : List Nat} {m : Str} (hr : env.read (fullPath s pr) = Except.ok bytes)
    (hw : env.write (pathJoin o n) = some m) :
    expectedEntry env s o n pr = .error (fullPath s pr) m := by
  unfold expectedEntry
  rw [hr, hw]

theorem expectedOut_some {env : Env} {s o n : Str} {pr : Pr} {ou : Str × Str}
    (h : expectedOut env s o n pr = some ou) :
    ∃ bytes, env.read (fullPath s pr) = Except.ok bytes ∧
      ou = (n, outContent env s pr.2 (fullPath s pr) (utf8DecodeReplace bytes)) := by
  unfold expectedOut at h
  rcases hr : env.read (fullPath s pr) with m | bytes
  · rw [hr] at h
    exact absurd h (by simp)
  · rw [hr] at h
    rcases hw : env.write (pathJoin o n) with _ | m
    · rw [hw] at h
      injection h with h2
      exact ⟨bytes, rfl, h2.symm⟩
    · rw [hw] at h
      exact absurd h (by simp)

theorem zip_entries_src (env : Env) (s o : Str) :
    ∀ (ns : List Str) (l : List Pr), ns.length = l.length →
    (List.zipWith (expectedEntry env s o) ns l).map entrySrc = l.map (fullPath s)
  | [], [], _ => rfl
  | _ :: _, [], _ => rfl
  | [], _ :: _, h => by simp at h
  | n :: ns, pr :: l, h => by
    simp only [List.zipWith, List.map_cons, expectedEntry_src]
    rw [zip_entries_src env s o ns l (by simpa using h)]

theorem convert_entries_src {env : Env} {s o : Str} {t : Tree} {run : Run}
    (h : convert env s o t = Except.ok run) :
    run.entries.map entrySrc = matchedPaths s t := by
  rw [(convert_ok_parts h).1]
  unfold matchedPaths
  exact zip_entries_src env s o _ _ (assignNames_length s _ _)

theorem countP_eq_one_of_nodup {α : Type} [DecidableEq α] {l : List α} {a : α}
    (h : l.Nodup) (hm : a ∈ l) : l.countP (fun x => decide (x = a)) = 1 := by
  induction l with
  | nil => cases hm
  | cons b bs ih =>
    rw [List.nodup_cons] at h
    rw [List.countP_cons]
    rcases List.mem_cons.1 hm with rfl | hm2
    · rw [if_pos (by simp)]
      have hz : bs.countP (fun x => decide (x = a)) = 0 := by
        rw [List.countP_eq_zero]
        intro x hx
        simp only [decide_eq_true_eq]
        intro he
        exact h.1 (he ▸ hx)
      rw [hz]
    · have hne : b ≠ a := by
        rintro rfl
        exact h.1 hm2
      rw [if_neg (by simp [hne])]
      simpa using ih h.2 hm2

theorem countP_eq_zero_of_not_mem {α : Type} [DecidableEq α] {l : List α} {a : α}
    (h : a ∉ l) : l.countP (fun x => decide (x = a)) = 0 := by
  rw [List.countP_eq_zero]
  intro x hx
  simp only [decide_eq_true_eq]
  rintro rfl
  exact h hx

theorem outputs_mem (env : Env) (s o : Str) :
    ∀ (ns : List Str) (l : List Pr) (ou : Str × Str),
    ou ∈ (List.zipWith (expectedOut env s o) ns l).filterMap id →
    ∃ n pr bytes, pr ∈ l ∧ env.read (fullPath s pr) = Except.ok bytes ∧
      ou = (n, outContent env s pr.2 (fullPath s pr) (utf8DecodeReplace bytes))
  | [], _, ou, h => by simp at h
  | _ :: _, [], ou, h => by simp at h
  | n :: ns, pr :: l, ou, h => by
    simp only [List.zipWith, filterMap_id_cons] at h
    rcases List.mem_append.1 h with h | h
    · rcases hx : expectedOut env s o n pr with _ | ou2
      · rw [hx] at h
        simp at h
      · rw [hx] at h
        simp only [Option.toList, List.mem_singleton] at h
        obtain ⟨bytes, hr, he⟩ := expectedOut_some hx
        exact ⟨n, pr, bytes, List.mem_cons_self _ _, hr, h ▸ he⟩
    · obtain ⟨n2, pr2, bytes, hm, hr, he⟩ := outputs_mem env s o ns l ou h
      exact ⟨n2, pr2, bytes, List.mem_cons_of_mem _ hm, hr, he⟩

theorem outputs_names_sublist (env : Env) (s o : Str) :
    ∀ (ns : List Str) (l : List Pr),
    (((List.zipWith (expectedOut env s o) ns l).filterMap id).map Prod.fst).Sublist ns
  | [], _ => by simp
  | _ :: _, [] => by simp
  | n :: ns, pr :: l => by
    simp only [List.zipWith, filterMap_id_cons, List.map_append]
    rcases hx : expectedOut env s o n pr with _ | ou
    · simp only [Option.toList, List.map_nil, List.nil_append]
      exact List.Sublist.cons n (outputs_names_sublist env s o ns l)
    · obtain ⟨bytes, _, rfl⟩ := expectedOut_some hx
      simp only [Option.toList, List.map_cons, List.map_nil, List.singleton_append]
      exact List.Sublist.cons₂ n (outputs_names_sublist env s o ns l)

theorem entryName_some {env : Env} {s o : Str} {ns : List Str} {l : List Pr}
    {k : Nat} {e : LogEntry} {n : Str}
    (he : (List.zipWith (expectedEntry env s o) ns l)[k]? = some e)
    (hn : entryName e = some n) : ns[k]? = some n := by
  rw [List.getElem?_zipWith] at he
  rcases hns : ns[k]? with _ | nk <;> rw [hns] at he
  · exact absurd he (by simp)
  · rcases hl : l[k]? with _ | pr <;> rw [hl] at he
    · exact absurd he (by simp)
    · injection he with he2
      rcases expectedEntry_name env s o nk pr with hh | hh

      · rw [← he2, hh] at hn
        exact absurd hn (by simp)
      · rw [← he2, hh] at hn
        injection hn with hn2
        rw [hn2]

/-! Claim theorems. -/

/-- C6: for every matched filename, the safe base name is obtained by
mapping each character of the base name to itself if it is alphanumeric
or a dash or an underscore, and to an underscore otherwise; in
particular the input filename weird name!@#.exs produces the output
filename weird_name___.exs.txt. -/
theorem C6_safe_name_mapping :
    (∀ b : Str, safeBase b =
      b.map (fun c => if pyIsAlnum c || c = '-' || c = '_' then c else '_')) ∧
    newFilename [] (str "weird name!@#.exs") (str "weird name!@#.exs") =
      str "weird_name___.exs.txt" := by
  constructor
  · intro b
    rfl
  · decide

/-- C9: for a matched filename whose only dot is its leading character,
such as a file literally named .exs, the computed original extension is
empty and the base name is the whole filename, so the output filename is
the safe-mapped full name plus .txt (here _exs.txt), and the text of the
Original extension header line is empty after the colon. -/
theorem C9_hidden_file_extension :
    isElixir (str ".exs") = true ∧
    pySuffix (str ".exs") = [] ∧
    pyStem (str ".exs") = str ".exs" ∧
    newFilename [] (str "x/.exs") (str ".exs") = str "_exs.txt" ∧
    str "Original extension: " ++ pySuffix (str ".exs") ++ str "\n" =
      str "Original extension: \n" := by
  refine ⟨by decide, by decide, by decide, by decide, by decide⟩

/-- C4: a matched file whose candidate name is already in the seen set
receives safeName plus underscore plus the first eight hex characters of
the digest of its full path string plus .txt; a file whose candidate is
not in the set keeps the candidate; and in a run of three files with one
safe name the second and third each hash their own full path
independently. -/
theorem C4_collision_fallback (seen : List Str) (p f s : Str) :
    (candName f ∈ seen →
      newFilename seen p f = safeName f ++ str "_" ++ pathHash8 p ++ str ".txt") ∧
    (candName f ∉ seen → newFilename seen p f = candName f) ∧
    pathHash8 p = (hexOfBytes (md5Digest (utf8Encode p))).take 8 ∧
    (∀ a b c : List Str,
      assignNames s [] [(a, f), (b, f), (c, f)] =
        [candName f, hashedName f (fullPath s (b, f)),
         hashedName f (fullPath s (c, f))]) := by
  refine ⟨?_, ?_, rfl, ?_⟩
  · intro h
    unfold newFilename hashedName
    rw [if_pos h]
  · intro h
    unfold newFilename
    rw [if_neg h]
  · intro a b c
    simp only [assignNames, newFilename]
    rw [if_neg (List.not_mem_nil _)]
    rw [if_pos (List.mem_cons_self _ _)]
    rw [if_pos (List.mem_cons_of_mem _ (List.mem_cons_self _ _))]

/-- Witness for C4 at concrete inputs. -/
theorem C4_collision_fallback_witness :
    newFilename [candName (str "util.ex")] (str "a/util.ex") (str "util.ex") =
      safeName (str "util.ex") ++ str "_" ++ pathHash8 (str "a/util.ex") ++
        str ".txt" ∧
    newFilename [] (str "a/util.ex") (str "util.ex") = candName (str "util.ex") :=
  ⟨(C4_collision_fallback [candName (str "util.ex")] (str "a/util.ex")
      (str "util.ex") (str "s")).1 (List.mem_cons_self _ _),
   (C4_collision_fallback [] (str "a/util.ex") (str "util.ex")
      (str "s")).2.1 (List.not_mem_nil _)⟩

/-- C2: in a completed run, the sequence of log-line source paths is
exactly the sequence of matched full paths; hence every regular file
ending in .ex or .exs that is not under a deps directory produces
exactly one log line (a success or an error line), and every file not
ending in .ex or .exs produces none. -/
theorem C2_matched_logged_once {env : Env} {s o : Str} {t : Tree} {run : Run}
    (hwf : wfT t = true) (hok : convert env s o t = Except.ok run) :
    run.entries.map entrySrc = matchedPaths s t ∧
    (∀ comps f, hasFile t comps f = true → str "deps" ∉ comps →
      ((isElixir f = true →
        (run.entries.map entrySrc).countP
          (fun q => decide (q = fullPath s (comps, f))) = 1) ∧
       (isElixir f = false →
        (run.entries.map entrySrc).countP
          (fun q => decide (q = fullPath s (comps, f))) = 0))) := by
  have hsrc := convert_entries_src hok
  refine ⟨hsrc, ?_⟩
  intro comps f hhf hdep
  have hmem : (comps, f) ∈ walkC t := walkCpl_T t hwf comps f hhf hdep
  rw [hsrc]
  constructor
  · intro hel
    refine countP_eq_one_of_nodup (matchedPaths_nodup s hwf) ?_
    unfold matchedPaths matchedOf
    exact List.mem_map_of_mem _ (List.mem_filter.2 ⟨hmem, hel⟩)
  · intro hnel
    refine countP_eq_zero_of_not_mem ?_
    intro hin
    unfold matchedPaths at hin
    obtain ⟨pr2, hpr2, heq⟩ := List.mem_map.1 hin
    obtain ⟨hw2, he2⟩ := matchedOf_subset hpr2
    have hpe := fullPath_inj (walkSf_T t hwf pr2 hw2)
      (walkSf_T t hwf _ hmem) heq
    rw [hpe] at he2
    simp [hnel] at he2

set_option maxRecDepth 100000 in
/-- Witness for C2 on a concrete tree with a deps directory, a matched
and an unmatched root file, and two matched files in lib. -/
theorem C2_matched_logged_once_witness :
    wfT wTree = true ∧
    wRun.entries.map entrySrc = matchedPaths (str "src") wTree ∧
    (wRun.entries.map entrySrc).countP
      (fun q => decide (q = fullPath (str "src") ([str "lib"], str "foo.ex"))) = 1 := by
  have h := @C2_matched_logged_once wEnv (str "src") (str "out") wTree wRun
    (by decide) (by rfl)
  refine ⟨by decide, h.1, ?_⟩
  exact (h.2 [str "lib"] (str "foo.ex") (by decide) (by decide)).1 (by decide)

/-- C3: traversal removes any subdirectory named deps from the descent
set, so no walk pair passes through a deps component, every log line's
source is the path of a deps-free matched pair, and every output file
arises from a deps-free matched pair. -/
theorem C3_deps_never_visited {env : Env} {s o : Str} {t : Tree} {run : Run}
    (hwf : wfT t = true) (hok : convert env s o t = Except.ok run) :
    (∀ pr ∈ walkC t, str "deps" ∉ pr.1) ∧
    (∀ e ∈ run.entries, ∃ pr, pr ∈ matchedOf t ∧ entrySrc e = fullPath s pr ∧
      str "deps" ∉ pr.1) ∧
    (∀ ou ∈ run.outputs, ∃ pr, pr ∈ matchedOf t ∧ str "deps" ∉ pr.1 ∧
      ∃ n bytes, env.read (fullPath s pr) = Except.ok bytes ∧
        ou = (n, outContent env s pr.2 (fullPath s pr) (utf8DecodeReplace bytes))) := by
  have hdep : ∀ pr ∈ walkC t, str "deps" ∉ pr.1 := walkDep_T t hwf
  refine ⟨hdep, ?_, ?_⟩
  · intro e he
    have hsrc := convert_entries_src hok
    have hmem : entrySrc e ∈ matchedPaths s t := by
      rw [← hsrc]
      exact List.mem_map_of_mem entrySrc he
    unfold matchedPaths at hmem
    obtain ⟨pr, hpr, heq⟩ := List.mem_map.1 hmem
    exact ⟨pr, hpr, heq.symm, hdep pr (matchedOf_subset hpr).1⟩
  · intro ou hou
    rw [(convert_ok_parts hok).2] at hou
    obtain ⟨n, pr, bytes, hm, hr, he⟩ := outputs_mem env s o _ _ ou hou
    exact ⟨pr, hm, hdep pr (matchedOf_subset hm).1, n, bytes, hr, he⟩

set_option maxRecDepth 100000 in
/-- Witness for C3: the concrete tree wTree has a deps directory with
matched files below it; none of them is visited, logged or copied. -/
theorem C3_deps_never_visited_witness :
    (∀ pr ∈ walkC wTree, str "deps" ∉ pr.1) ∧
    (∀ e ∈ wRun.entries, ∃ pr, pr ∈ matchedOf wTree ∧
      entrySrc e = fullPath (str "src") pr ∧ str "deps" ∉ pr.1) := by
  have h := @C3_deps_never_visited wEnv (str "src") (str "out") wTree wRun
    (by decide) (by rfl)
  exact ⟨h.1, h.2.1⟩

/-- C5: in a completed run, every output file's contents are the
metadata header followed by the permissively decoded source bytes
verbatim, so the portion after the header equals the decoded content;
decoding is a total function and never fails. -/
theorem C5_content_roundtrip {env : Env} {s o : Str} {t : Tree} {run : Run}
    (hok : convert env s o t = Except.ok run) :
    ∀ ou ∈ run.outputs, ∃ pr bytes, pr ∈ matchedOf t ∧
      env.read (fullPath s pr) = Except.ok bytes ∧
      ou.2 = headerFor env s pr.2 (fullPath s pr) ++ utf8DecodeReplace bytes ∧
      ou.2.drop (headerFor env s pr.2 (fullPath s pr)).length =
        utf8DecodeReplace bytes := by
  intro ou hou
  rw [(convert_ok_parts hok).2] at hou
  obtain ⟨n, pr, bytes, hm, hr, he⟩ := outputs_mem env s o _ _ ou hou
  refine ⟨pr, bytes, hm, hr, ?_, ?_⟩
  · rw [he]
    rfl
  · rw [he]
    exact List.drop_left _ _


set_option maxRecDepth 100000 in
/-- Witness for C5 on the concrete run wRun. -/
theorem C5_content_roundtrip_witness :
    ∃ ou, ou ∈ wRun.outputs ∧ ∃ pr bytes, pr ∈ matchedOf wTree ∧
      wEnv.read (fullPath (str "src") pr) = Except.ok bytes ∧
      ou.2 = headerFor wEnv (str "src") pr.2 (fullPath (str "src") pr) ++
        utf8DecodeReplace bytes ∧
      ou.2.drop (headerFor wEnv (str "src") pr.2 (fullPath (str "src") pr)).length =
        utf8DecodeReplace bytes := by
  have h := @C5_content_roundtrip wEnv (str "src") (str "out") wTree wRun (by rfl)
  have hm : wRun.outputs[0]? = some (wRun.outputs.headI) := by decide
  refine ⟨wRun.outputs.headI, List.getElem?_mem hm, h wRun.outputs.headI (List.getElem?_mem hm)⟩

set_option maxHeartbeats 4000000 in
/-- C1 counterexample: on the tree cexTree with source directory src,
the three distinct matched files a/util.ex, dd0e/util.ex and
d5e10/util.ex map to the same safe name; the second and third fall back
to the 8-hex path hash, and the MD5 digests of src/dd0e/util.ex and
src/d5e10/util.ex agree on their first eight hex characters, so two
distinct files receive the same final output filename: uniqueness as
claimed fails. -/
theorem C1_uniqueness_counterexample :
    wfT cexTree = true ∧
    (matchedPaths (str "src") cexTree).Nodup ∧
    assignNames (str "src") [] (matchedOf cexTree) =
      [str "util.ex.txt", str "util.ex_cfd2f544.txt",
       str "util.ex_cfd2f544.txt"] ∧
    ¬ (assignNames (str "src") [] (matchedOf cexTree)).Nodup ∧
    convert wEnv (str "src") (str "out") cexTree = Except.ok cexRun ∧
    ¬ (cexRun.outputs.map Prod.fst).Nodup := by
  refine ⟨by decide, by decide, by decide, by decide, by rfl, by decide⟩

/-- C1 (amended): in a completed run over a well-formed tree, the final
output filenames assigned to the matched files are pairwise distinct
provided that any two distinct colliding files (same safe name) have
distinct 8-hex path hashes; in particular the output file names are
distinct. -/
theorem C1_output_names_unique {env : Env} {s o : Str} {t : Tree} {run : Run}
    (hwf : wfT t = true) (hok : convert env s o t = Except.ok run)
    (hhash : ∀ pr1 ∈ matchedOf t, ∀ pr2 ∈ matchedOf t,
      fullPath s pr1 ≠ fullPath s pr2 → safeName pr1.2 = safeName pr2.2 →
      pathHash8 (fullPath s pr1) ≠ pathHash8 (fullPath s pr2)) :
    (assignNames s [] (matchedOf t)).Nodup ∧
    (run.outputs.map Prod.fst).Nodup := by
  have hnd : (assignNames s [] (matchedOf t)).Nodup :=
    assignNames_nodup s (matchedOf t) [] (matchedPaths_nodup s hwf)
      (fun pr hpr => (matchedOf_subset hpr).2) hhash
  refine ⟨hnd, ?_⟩
  rw [(convert_ok_parts hok).2]
  exact List.Nodup.sublist (outputs_names_sublist env s o _ _) hnd

set_option maxRecDepth 100000 in
/-- Witness for the amended C1 on the concrete run wRun. -/
theorem C1_output_names_unique_witness :
    (assignNames (str "src") [] (matchedOf wTree)).Nodup ∧
    (wRun.outputs.map Prod.fst).Nodup :=
  @C1_output_names_unique wEnv (str "src") (str "out") wTree wRun
    (by decide) (by rfl) (by decide)

/-- C7: inability to create the output directory or to open the log
file aborts the run with an error, whereas a failure reading one source
file, or writing its output, is recorded as exactly one error line at
that file's position in the log and every other matched file is still
processed (the log has one line per matched file). -/
theorem C7_error_tiers (env : Env) (s o : Str) (t : Tree) :
    ((env.mkdirOk = false ∨ env.logOpenOk = false) →
      convert env s o t = Except.error ()) ∧
    (∀ run, convert env s o t = Except.ok run →
      run.entries.length = (matchedOf t).length ∧
      (∀ (k : Nat) (pr : Pr) (m : Str), (matchedOf t)[k]? = some pr →
        env.read (fullPath s pr) = Except.error m →
        run.entries[k]? = some (LogEntry.error (fullPath s pr) m)) ∧
      (∀ (k : Nat) (pr : Pr) (bytes : List Nat) (m : Str),
        (matchedOf t)[k]? = some pr →
        env.read (fullPath s pr) = Except.ok bytes →
        (∀ fn, env.write (pathJoin o fn) = some m) →
        run.entries[k]? = some (LogEntry.error (fullPath s pr) m))) := by
  constructor
  · intro h
    unfold convert
    rcases h with h | h
    · rw [if_pos h]
    · by_cases hm : env.mkdirOk = false
      · rw [if_pos hm]
      · rw [if_neg hm, if_pos h]
  · intro run hok
    have hent := (convert_ok_parts hok).1
    have hlen2 := assignNames_length s (matchedOf t) []
    refine ⟨?_, ?_, ?_⟩
    · rw [hent, List.length_zipWith, hlen2, Nat.min_self]
    · intro k pr m hk hr
      have hklt : k < (matchedOf t).length := by
        obtain ⟨h1, _⟩ := List.getElem?_eq_some.1 hk
        exact h1
      rw [hent, List.getElem?_zipWith, hk]
      rcases hns : (assignNames s [] (matchedOf t))[k]? with _ | nk
      · have hle := List.getElem?_eq_none_iff.1 hns
        rw [hlen2] at hle
        exact absurd hklt (Nat.not_lt.2 hle)
      · show some (expectedEntry env s o nk pr) =
          some (LogEntry.error (fullPath s pr) m)
        rw [expectedEntry_read_error o nk hr]
    · intro k pr bytes m hk hr hw
      have hklt : k < (matchedOf t).length := by
        obtain ⟨h1, _⟩ := List.getElem?_eq_some.1 hk
        exact h1
      rw [hent, List.getElem?_zipWith, hk]
      rcases hns : (assignNames s [] (matchedOf t))[k]? with _ | nk
      · have hle := List.getElem?_eq_none_iff.1 hns
        rw [hlen2] at hle
        exact absurd hklt (Nat.not_lt.2 hle)
      · show some (expectedEntry env s o nk pr) =
          some (LogEntry.error (fullPath s pr) m)
        rw [expectedEntry_write_error hr (hw nk)]

set_option maxRecDepth 100000 in
/-- Witness for C7: a failing mkdir aborts, and in the run wRunFail the
unreadable first file yields an error line at position zero while the
log still has one line per matched file. -/
theorem C7_error_tiers_witness :
    convert wEnvBad (str "src") (str "out") wTree = Except.error () ∧
    wRunFail.entries.length = (matchedOf w10Tree).length ∧
    wRunFail.entries[0]? =
      some (LogEntry.error (fullPath (str "src") ([str "a"], str "util.ex"))
        (str "Permission denied")) := by
  have h2 := (C7_error_tiers wEnvFail (str "src") (str "out") w10Tree).2
    wRunFail (by rfl)
  refine ⟨(C7_error_tiers wEnvBad (str "src") (str "out") wTree).1 (Or.inl rfl),
    h2.1, ?_⟩
  exact h2.2.1 0 ([str "a"], str "util.ex") (str "Permission denied")
    (by decide) (by rfl)

/-- C8: naming is deterministic in the path strings alone; two
completed runs over the same tree log the same source paths, and the
output filename recorded in any success line equals the name assigned
by the pure naming fold over the matched paths, so it agrees between
the two runs whatever the file contents and timestamps were. -/
theorem C8_naming_deterministic {env1 env2 : Env} {s o : Str} {t : Tree}
    {run1 run2 : Run} (h1 : convert env1 s o t = Except.ok run1)
    (h2 : convert env2 s o t = Except.ok run2) :
    run1.entries.map entrySrc = run2.entries.map entrySrc ∧
    (∀ (k : Nat) (e : LogEntry) (n : Str), run1.entries[k]? = some e →
      entryName e = some n →
      (assignNames s [] (matchedOf t))[k]? = some n) ∧
    (∀ (k : Nat) (e1 e2 : LogEntry) (n1 n2 : Str),
      run1.entries[k]? = some e1 →
      run2.entries[k]? = some e2 → entryName e1 = some n1 →
      entryName e2 = some n2 → n1 = n2) := by
  have hmid1 : ∀ (k : Nat) (e : LogEntry) (n : Str), run1.entries[k]? = some e →
      entryName e = some n →
      (assignNames s [] (matchedOf t))[k]? = some n := by
    intro k e n he hn
    rw [(convert_ok_parts h1).1] at he
    exact entryName_some he hn
  have hmid2 : ∀ (k : Nat) (e : LogEntry) (n : Str), run2.entries[k]? = some e →
      entryName e = some n →
      (assignNames s [] (matchedOf t))[k]? = some n := by
    intro k e n he hn
    rw [(convert_ok_parts h2).1] at he
    exact entryName_some he hn
  refine ⟨(convert_entries_src h1).trans (convert_entries_src h2).symm,
    hmid1, ?_⟩
  intro k e1 e2 n1 n2 he1 he2 hn1 hn2
  have q1 := hmid1 k e1 n1 he1 hn1
  have q2 := hmid2 k e2 n2 he2 hn2
  exact Option.some.inj (q1.symm.trans q2)

set_option maxRecDepth 100000 in
/-- Witness for C8: the runs of wEnv and wEnv8 (different contents and
timestamps) over wTree log the same paths, and the success line at
position zero records the path-determined name main.ex.txt. -/
theorem C8_naming_deterministic_witness :
    wRun.entries.map entrySrc = wRun8.entries.map entrySrc ∧
    (assignNames (str "src") [] (matchedOf wTree))[0]? =
      some (str "main.ex.txt") := by
  have h := @C8_naming_deterministic wEnv wEnv8 (str "src") (str "out")
    wTree wRun wRun8 (by rfl) (by rfl)
  exact ⟨h.1, h.2.1 0 (LogEntry.success (str "src/main.ex") (str "main.ex.txt"))
    (str "main.ex.txt") (by decide) (by decide)⟩

/-- C10: the final output filename is inserted into the seen set before
the copy is attempted, so a failed file's name is still in the set: the
failed file produces an error line, and a later file whose candidate
equals the failed file's assigned name receives the hash-suffixed
fallback even though no output file exists under the plain name. -/
theorem C10_seen_inserted_before_try (env : Env) (s o : Str)
    (seen : List Str) (pr1 pr2 : Pr) (m : Str)
    (hfail : env.read (fullPath s pr1) = Except.error m)
    (hcand : candName pr2.2 = newFilename seen (fullPath s pr1) pr1.2) :
    (processFile env s o seen pr1).1 =
      newFilename seen (fullPath s pr1) pr1.2 :: seen ∧
    (runFiles env s o [pr1, pr2] seen).2.1[0]? =
      some (LogEntry.error (fullPath s pr1) m) ∧
    assignNames s seen [pr1, pr2] =
      [newFilename seen (fullPath s pr1) pr1.2,
       hashedName pr2.2 (fullPath s pr2)] := by
  have h2 : newFilename (newFilename seen (fullPath s pr1) pr1.2 :: seen)
      (fullPath s pr2) pr2.2 = hashedName pr2.2 (fullPath s pr2) := by
    rw [show newFilename seen (fullPath s pr1) pr1.2 = candName pr2.2 from hcand.symm]
    unfold newFilename
    rw [if_pos (List.mem_cons_self _ _)]
  refine ⟨?_, ?_, ?_⟩
  · rw [processFile_eq]
  · rw [runFiles_eq]
    simp only [assignNames, List.zipWith_cons_cons]
    rw [List.getElem?_cons_zero]
    rw [expectedEntry_read_error o _ hfail]
  · simp only [assignNames, h2]

set_option maxRecDepth 100000 in
/-- Witness for C10: with wEnvFail the read of src/a/util.ex fails, yet
src/b/util.ex still receives the hash-suffixed fallback name. -/
theorem C10_seen_inserted_before_try_witness :
    (processFile wEnvFail (str "src") (str "out") [] ([str "a"], str "util.ex")).1 =
      newFilename [] (fullPath (str "src") ([str "a"], str "util.ex"))
        (str "util.ex") :: [] ∧
    (runFiles wEnvFail (str "src") (str "out")
      [([str "a"], str "util.ex"), ([str "b"], str "util.ex")] []).2.1[0]? =
      some (LogEntry.error (fullPath (str "src") ([str "a"], str "util.ex"))
        (str "Permission denied")) ∧
    assignNames (str "src") []
      [([str "a"], str "util.ex"), ([str "b"], str "util.ex")] =
      [newFilename [] (fullPath (str "src") ([str "a"], str "util.ex"))
        (str "util.ex"),
       hashedName (str "util.ex") (fullPath (str "src") ([str "b"], str "util.ex"))] :=
  C10_seen_inserted_before_try wEnvFail (str "src") (str "out") []
    ([str "a"], str "util.ex") ([str "b"], str "util.ex")
    (str "Permission denied") (by rfl) (by decide)

end Script
